import Mathlib

/-! Fractal-Threads: the Mandelbrot engine of `mandel.c`.

A shallow embedding of `iteration_to_color`, `iterations_at_point`,
`divide_threads` and `compute_image`, followed by the properties proved of
them.

Conventions of the embedding.

* C `int` is `Int`. Where a product can leave the 32-bit range
  (`255 * i` in `iteration_to_color`) the result is reduced with `wrap32`
  (two's complement wrap-around); `/` on `int` is `Int.tdiv` (truncation
  toward zero).
* C `double` is an arbitrary type `F` carrying `+ - * /`, a conversion from
  `int` and a decidable `≤`. No law of arithmetic is assumed of `F`, so every
  statement made for all `F` holds whatever the rounding is. Statements that
  need the value of an arithmetic expression are made at `F = ℚ`, at points
  where every intermediate value is a small integer (exact in `double`) or
  where the comparison made is far from its threshold.
* Loops are recursive functions over a step budget that is computed from the
  loop bounds; for each loop it is proved that the budget is never the reason
  the loop stops.
* Worker threads are run one after another. `compute_image` runs them in
  creation order; the statements about its result are also proved for every
  other order, that is, for every permutation of the list of workers.
* The header `bitmap.h` and the bitmap library are not among the sources; the
  few operations used are modelled from the spec, and marked so.
-/

namespace Mandel

/-! ## Machine integers -/

/-- Two's complement reduction of an integer to the range of a 32-bit `int`. -/
def wrap32 (n : Int) : Int := (n + 2147483648) % 4294967296 - 2147483648

/-- The largest value of a 32-bit `int`. -/
def INT_MAX : Int := 2147483647

/-- Product of two `int`s as a 32-bit machine computes it. -/
def int_mul (a b : Int) : Int := wrap32 (a * b)

/-- Quotient of two `int`s whose divisor is not zero: truncation toward zero,
as C defines `/`. Division by zero, undefined in C, has no meaning here: the
properties C1 to C10 below that involve a color are stated for a divisor `max`
other than 0, and the auxiliary lemmas are used under that assumption only. -/
def int_div (a b : Int) : Int := wrap32 (Int.tdiv a b)

/-! ## Colors and the bitmap collaborator -/

/-- The four channels of a color. -/
structure RGBA where
  r : Int
  g : Int
  b : Int
  a : Int
deriving DecidableEq, Repr

/-- Modelled from the spec: the macro `MAKE_RGBA` of `bitmap.h`, a header that
is not among the sources. The spec describes its result as an RGBA color with
the given value on each channel; the packing into one `int` is not modelled. -/
def MAKE_RGBA (r g b a : Int) : RGBA := ⟨r, g, b, a⟩

/-- Modelled from the spec: `struct bitmap` of the bitmap library, which is not
among the sources. A grid of pixels with a width and a height, addressed by
column and row. `log` is ghost state: the coordinates of every `bitmap_set`
call made so far, most recent first. -/
structure bitmap where
  width : Nat
  height : Nat
  data : Int → Int → RGBA
  log : List (Int × Int)

/-- Modelled from the spec: `bitmap_width`, the width query of the bitmap
library. -/
def bitmap_width (bm : bitmap) : Int := bm.width

/-- Modelled from the spec: `bitmap_height`, the height query of the bitmap
library. -/
def bitmap_height (bm : bitmap) : Int := bm.height

/-- Modelled from the spec: `bitmap_set`, which writes one pixel and nothing
else. The call is recorded in the ghost log. -/
def bitmap_set (bm : bitmap) (x y : Int) (color : RGBA) : bitmap :=
  { bm with
    data := fun i j => if i = x ∧ j = y then color else bm.data i j
    log := (x, y) :: bm.log }

/-- Modelled from the spec: the image `main` hands to `compute_image`, made by
`bitmap_create(width, height)` and `bitmap_reset(bm, color)` of the bitmap
library: every pixel holds `color`, and no pixel has been set yet. -/
def blank_image (width height : Nat) (color : RGBA) : bitmap :=
  { width := width, height := height, data := fun _ _ => color, log := [] }

/-! ## `iteration_to_color` and `iterations_at_point` -/

/-- Function `iteration_to_color` (mandel.c:220-224): the product `255 * i` and
the quotient by `max` are computed on 32-bit `int`s. -/
def iteration_to_color (i max : Int) : RGBA :=
  let gray := int_div (int_mul 255 i) max
  MAKE_RGBA gray gray gray 0

section Engine

variable {F : Type} [Add F] [Sub F] [Mul F] [IntCast F] [LE F]
  [DecidableRel (fun a b : F => a ≤ b)]

/-- The guard of the `while` loop of `iterations_at_point` (mandel.c:199) at
the state `s = (x, y, iter)`. -/
def loop_guard (max : Int) (s : F × F × Int) : Prop :=
  s.1 * s.1 + s.2.1 * s.2.1 ≤ ((4 : Int) : F) ∧ s.2.2 < max

/-- The `while` loop of `iterations_at_point` (mandel.c:199-209): the state is
`(x, y, iter)`, the first argument is the step budget. -/
def iterations_loop (x0 y0 : F) (max : Int) : Nat → F → F → Int → F × F × Int
  | 0, x, y, iter => (x, y, iter)
  | fuel + 1, x, y, iter =>
    if x * x + y * y ≤ ((4 : Int) : F) ∧ iter < max then
      let xt := x * x - y * y + x0
      let yt := ((2 : Int) : F) * x * y + y0
      iterations_loop x0 y0 max fuel xt yt (iter + 1)
    else (x, y, iter)

/-- The state in which the loop of `iterations_at_point` stops: the loop is
entered with `iter = 0` and a budget of `max` steps. -/
def iterations_final (x y : F) (max : Int) : F × F × Int :=
  let x0 := x
  let y0 := y
  iterations_loop x0 y0 max max.toNat x y 0

/-- The value of `iter` that `iterations_at_point` hands to
`iteration_to_color`. -/
def iterations_count (x y : F) (max : Int) : Int :=
  (iterations_final x y max).2.2

/-- Function `iterations_at_point` (mandel.c:192-212). -/
def iterations_at_point (x y : F) (max : Int) : RGBA :=
  iteration_to_color (iterations_count x y max) max

/-! ## `divide_threads` -/

variable [Div F]

/-- Struct `ThreadParameters` (mandel.c:12-17). The field `bm` is a pointer to the
shared image; the image is passed to the worker as a separate argument. -/
structure ThreadParameters (F : Type) where
  xmin : F
  xmax : F
  ymin : F
  ymax : F
  max_iterations : Int
  start_row : Int
  end_row : Int

/-- The inner loop of `divide_threads` (mandel.c:40-51), over the columns `i`
of row `j`. -/
def divide_threads_cols (data : ThreadParameters F) (width j : Int) :
    Nat → Int → bitmap → bitmap
  | 0, _, bm => bm
  | fuel + 1, i, bm =>
    if i < width then
      let x := data.xmin + (i : F) * (data.xmax - data.xmin) / (width : F)
      let y := data.ymin + (j : F) * (data.ymax - data.ymin) / (bitmap_height bm : F)
      let iters := iterations_at_point x y data.max_iterations
      divide_threads_cols data width j fuel (i + 1) (bitmap_set bm i j iters)
    else bm

/-- The outer loop of `divide_threads` (mandel.c:38-52), over the rows `j`. -/
def divide_threads_rows (data : ThreadParameters F) (width : Int) :
    Nat → Int → bitmap → bitmap
  | 0, _, bm => bm
  | fuel + 1, j, bm =>
    if j < data.end_row then
      divide_threads_rows data width fuel (j + 1)
        (divide_threads_cols data width j width.toNat 0 bm)
    else bm

/-- Function `divide_threads` (mandel.c:33-55): one worker, run on the image `bm`. -/
def divide_threads (data : ThreadParameters F) (bm : bitmap) : bitmap :=
  let width := bitmap_width bm
  divide_threads_rows data width (data.end_row - data.start_row).toNat data.start_row bm

/-! ## `compute_image` -/

/-- What stops `compute_image` short of returning. -/
inductive Fault where
  | division_by_zero
deriving DecidableEq, Repr

/-- Division of two `int`s as `compute_image` performs it (mandel.c:164): a
zero divisor is undefined behaviour, reported as a fault; otherwise the
quotient truncates toward zero. -/
def checked_div (a b : Int) : Except Fault Int :=
  if b = 0 then Except.error Fault.division_by_zero else Except.ok (Int.tdiv a b)

/-- The parameters given to worker `i` (mandel.c:167-174). -/
def thread_data (xmin xmax ymin ymax : F) (max height num_threads rows_per_thread i : Int) :
    ThreadParameters F :=
  { xmin := xmin
    xmax := xmax
    ymin := ymin
    ymax := ymax
    max_iterations := max
    start_row := i * rows_per_thread
    end_row := if i = num_threads - 1 then height else (i + 1) * rows_per_thread }

/-- The creation loop of `compute_image` (mandel.c:165-178): the workers in
the order in which they are created. -/
def create_threads (xmin xmax ymin ymax : F) (max height num_threads rows_per_thread : Int) :
    Nat → Int → List (ThreadParameters F)
  | 0, _ => []
  | fuel + 1, i =>
    if i < num_threads then
      thread_data xmin xmax ymin ymax max height num_threads rows_per_thread i ::
        create_threads xmin xmax ymin ymax max height num_threads rows_per_thread fuel (i + 1)
    else []

/-- The workers of one call of `compute_image`, in creation order. -/
def workers (xmin xmax ymin ymax : F) (max height num_threads rows_per_thread : Int) :
    List (ThreadParameters F) :=
  create_threads xmin xmax ymin ymax max height num_threads rows_per_thread num_threads.toNat 0

/-- The image after the workers `ws` have run to completion one after another,
in the order of the list. -/
def run_workers (ws : List (ThreadParameters F)) (bm : bitmap) : bitmap :=
  ws.foldl (fun b w => divide_threads w b) bm

/-- Function `compute_image` (mandel.c:157-185). `rows_per_thread` is computed first;
then the workers are created and, in this definition, run in creation order.
The two arrays of `num_threads` elements are not modelled: for
`num_threads ≤ 0` the creation loop runs no iteration and nothing is stored in
them. -/
def compute_image (bm : bitmap) (xmin xmax ymin ymax : F) (max num_threads : Int) :
    Except Fault bitmap :=
  let height := bitmap_height bm
  match checked_div height num_threads with
  | Except.error e => Except.error e
  | Except.ok rows_per_thread =>
    Except.ok
      (run_workers (workers xmin xmax ymin ymax max height num_threads rows_per_thread) bm)

/-! ## Vocabulary of the statements -/

/-- The color `divide_threads` computes for the pixel `(col, row)` of an image
of the given width and height (mandel.c:43-47). -/
def point_color (xmin xmax ymin ymax : F) (max width height col row : Int) : RGBA :=
  iterations_at_point (xmin + (col : F) * (xmax - xmin) / (width : F))
    (ymin + (row : F) * (ymax - ymin) / (height : F)) max

/-- The image `after` is the image `before` with the pixels of the region `R`
set to the colors `v`, and every other pixel as it was. -/
def Filled (v : Int → Int → RGBA) (R : Int → Int → Prop) (before after : bitmap) : Prop :=
  after.width = before.width ∧ after.height = before.height ∧
  (∀ c r, R c r → after.data c r = v c r) ∧
  (∀ c r, ¬ R c r → after.data c r = before.data c r)

/-- Between `before` and `after`, `bitmap_set` was called exactly once on each
pixel of the region `R` and on no other pixel. -/
def WroteOnce (R : Int → Int → Prop) (before after : bitmap) : Prop :=
  ∃ ws : List (Int × Int), after.log = ws ++ before.log ∧ ws.Nodup ∧
    ∀ c r, (c, r) ∈ ws ↔ R c r

/-- The pixels of a worker: the columns `[0, width)` of its rows
`[start_row, end_row)`. -/
def in_range (w : ThreadParameters F) (width c r : Int) : Prop :=
  (0 ≤ c ∧ c < width) ∧ (w.start_row ≤ r ∧ r < w.end_row)

/-- The worker `w` was given the viewport and the iteration cap of the call. -/
def same_view (xmin xmax ymin ymax : F) (max : Int) (w : ThreadParameters F) : Prop :=
  w.xmin = xmin ∧ w.xmax = xmax ∧ w.ymin = ymin ∧ w.ymax = ymax ∧ w.max_iterations = max

end Engine

/-! ## Integer arithmetic of the color scaling -/

theorem wrap32_of_range {n : Int} (h1 : -2147483648 ≤ n) (h2 : n ≤ 2147483647) : wrap32 n = n := by
  unfold wrap32; omega

theorem tdiv_mono {a b m : Int} (hm : 0 < m) (hab : a ≤ b) : Int.tdiv a m ≤ Int.tdiv b m := by
  rcases le_or_lt 0 a with ha | ha
  · rw [Int.tdiv_eq_ediv ha hm.le, Int.tdiv_eq_ediv (ha.trans hab) hm.le]
    exact Int.ediv_le_ediv hm hab
  · rcases le_or_lt 0 b with hb | hb
    · have h1 : Int.tdiv (-a) m = -(Int.tdiv a m) := Int.neg_tdiv _ _
      have h2 : 0 ≤ Int.tdiv (-a) m := Int.tdiv_nonneg (by omega) hm.le
      have h3 : 0 ≤ Int.tdiv b m := Int.tdiv_nonneg hb hm.le
      omega
    · have h1 : Int.tdiv (-a) m = -(Int.tdiv a m) := Int.neg_tdiv _ _
      have h2 : Int.tdiv (-b) m = -(Int.tdiv b m) := Int.neg_tdiv _ _
      rw [Int.tdiv_eq_ediv (by omega) hm.le] at h1 h2
      have := Int.ediv_le_ediv hm (show -b ≤ -a by omega)
      omega

theorem tdiv_abs_le {a m : Int} (hm : 0 < m) : -|a| ≤ Int.tdiv a m ∧ Int.tdiv a m ≤ |a| := by
  rcases le_or_lt 0 a with ha | ha
  · rw [Int.tdiv_eq_ediv ha hm.le, abs_of_nonneg ha]
    have h1 : 0 ≤ a / m := Int.ediv_nonneg ha hm.le
    have h2 : a / m ≤ a := Int.ediv_le_self _ ha
    omega
  · have h1 : Int.tdiv (-a) m = -(Int.tdiv a m) := Int.neg_tdiv _ _
    rw [Int.tdiv_eq_ediv (by omega) hm.le] at h1
    have h2 : 0 ≤ (-a) / m := Int.ediv_nonneg (by omega) hm.le
    have h3 : (-a) / m ≤ -a := Int.ediv_le_self _ (by omega)
    rw [abs_of_neg ha]; omega

/-- The gray level when the product `255 * i` fits a 32-bit `int`. -/
theorem iteration_to_color_of_range {i max : Int} (hm : 0 < max)
    (h1 : -2147483648 ≤ 255 * i) (h2 : 255 * i ≤ 2147483647) :
    iteration_to_color i max
      = MAKE_RGBA (Int.tdiv (255 * i) max) (Int.tdiv (255 * i) max) (Int.tdiv (255 * i) max) 0 := by
  have hb := tdiv_abs_le (a := 255 * i) hm
  have habs : |255 * i| ≤ 2147483648 := abs_le.mpr ⟨by omega, by omega⟩
  have hw : wrap32 (255 * i) = 255 * i := wrap32_of_range h1 h2
  have hub : Int.tdiv (255 * i) max ≤ 2147483647 := by
    rcases le_or_lt 0 (255 * i) with h | h
    · have := abs_of_nonneg h; omega
    · have := Int.tdiv_nonpos (a := -(255*i)) (b := -max) (by omega) (by omega)
      simp at this
      omega
  simp only [iteration_to_color, int_div, int_mul, hw]
  rw [wrap32_of_range (by omega) hub]

/-- C10. With `int` a 32-bit signed integer: for `1 ≤ max ≤ 8421504` and
`0 ≤ count ≤ max` the product `255 * count` of `iteration_to_color` lies in
`[0, 2^31 - 1]`, so it is computed without wrap-around, the gray level is the
mathematical floor of `255 * count / max`, and it lies in `[0, 255]`. For
`max = count = 8421505` the product exceeds `2^31 - 1` and the machine product
differs from the mathematical one. -/
theorem iteration_to_color_overflow_bound :
    (∀ max count : Int, 1 ≤ max → max ≤ 8421504 → 0 ≤ count → count ≤ max →
      0 ≤ 255 * count ∧ 255 * count ≤ INT_MAX ∧ int_mul 255 count = 255 * count ∧
      iteration_to_color count max
        = MAKE_RGBA ⌊((255 * count : Int) : ℚ) / (max : ℚ)⌋ ⌊((255 * count : Int) : ℚ) / (max : ℚ)⌋
            ⌊((255 * count : Int) : ℚ) / (max : ℚ)⌋ 0 ∧
      0 ≤ ⌊((255 * count : Int) : ℚ) / (max : ℚ)⌋ ∧
      ⌊((255 * count : Int) : ℚ) / (max : ℚ)⌋ ≤ 255) ∧
    (INT_MAX < 255 * 8421505 ∧ int_mul 255 8421505 ≠ 255 * 8421505) := by
  refine ⟨?_, by decide, by decide⟩
  intro max count h1 h2 h3 h4
  have hfl : ⌊((255 * count : Int) : ℚ) / (max : ℚ)⌋ = (255 * count) / max := by
    lift max to ℕ using (by omega)
    exact Rat.floor_intCast_div_natCast _ _
  have hmul : int_mul 255 count = 255 * count := wrap32_of_range (by omega) (by omega)
  have hdiv : Int.tdiv (255 * count) max = (255 * count) / max :=
    Int.tdiv_eq_ediv (by omega) (by omega)
  have hlo : 0 ≤ (255 * count) / max := Int.ediv_nonneg (by omega) (by omega)
  have hhi : (255 * count) / max ≤ 255 := by
    have : (255 * count) / max < 256 := Int.ediv_lt_of_lt_mul (by omega) (by omega)
    omega
  refine ⟨by omega, by unfold INT_MAX; omega, hmul, ?_, by rw [hfl]; exact hlo,
    by rw [hfl]; exact hhi⟩
  rw [iteration_to_color_of_range (by omega) (by omega) (by omega), hfl, hdiv]

/-- The overflow bound at the largest admissible cap, `max = count = 8421504`. -/
theorem iteration_to_color_overflow_bound_witness :
    iteration_to_color 8421504 8421504
      = MAKE_RGBA ⌊((255 * 8421504 : Int) : ℚ) / ((8421504 : Int) : ℚ)⌋
          ⌊((255 * 8421504 : Int) : ℚ) / ((8421504 : Int) : ℚ)⌋
          ⌊((255 * 8421504 : Int) : ℚ) / ((8421504 : Int) : ℚ)⌋ 0 :=
  (iteration_to_color_overflow_bound.1 8421504 8421504 (by decide) (by decide) (by decide)
    (by decide)).2.2.2.1

/-- C6, as stated, fails: with `max = 8421505` the counts `0 ≤ 8421505` give
the gray levels `0` and `-254`, because `255 * 8421505` leaves the range of a
32-bit `int`. -/
theorem color_monotonicity_counterexample :
    (1 : Int) ≤ 8421505 ∧ (0 : Int) ≤ 8421505 ∧
    iteration_to_color 0 8421505 = MAKE_RGBA 0 0 0 0 ∧
    iteration_to_color 8421505 8421505 = MAKE_RGBA (-254) (-254) (-254) 0 ∧
    ¬ ((iteration_to_color 0 8421505).r ≤ (iteration_to_color 8421505 8421505).r) := by
  decide

/-- C6, amended. For `max ≥ 1` and counts `a ≤ b` whose products `255 * a` and
`255 * b` fit a 32-bit `int`, the gray level of `a` is at most the gray level
of `b` on each of the three color channels. -/
theorem color_monotonicity (max a b : Int) (hmax : 1 ≤ max) (hab : a ≤ b)
    (ha : -2147483648 ≤ 255 * a) (hb : 255 * b ≤ INT_MAX) :
    (iteration_to_color a max).r ≤ (iteration_to_color b max).r ∧
    (iteration_to_color a max).g ≤ (iteration_to_color b max).g ∧
    (iteration_to_color a max).b ≤ (iteration_to_color b max).b := by
  unfold INT_MAX at hb
  rw [iteration_to_color_of_range (by omega) ha (by omega),
    iteration_to_color_of_range (by omega) (by omega) hb]
  have h := tdiv_mono (m := max) (by omega) (show 255 * a ≤ 255 * b by omega)
  exact ⟨h, h, h⟩

/-- The amended C6 at `max = 50`, `a = 10`, `b = 20`. -/
theorem color_monotonicity_witness :
    (iteration_to_color 10 50).r ≤ (iteration_to_color 20 50).r ∧
    (iteration_to_color 10 50).g ≤ (iteration_to_color 20 50).g ∧
    (iteration_to_color 10 50).b ≤ (iteration_to_color 20 50).b :=
  color_monotonicity 50 10 20 (by decide) (by decide) (by decide) (by decide)

/-! ## The loop of `iterations_at_point` -/

section LoopFacts

variable {F : Type} [Add F] [Sub F] [Mul F] [IntCast F] [LE F]
  [DecidableRel (fun a b : F => a ≤ b)]

theorem iterations_loop_counter (x0 y0 : F) (max : Int) :
    ∀ (fuel : Nat) (x y : F) (iter : Int), iter ≤ max →
      iter ≤ (iterations_loop x0 y0 max fuel x y iter).2.2 ∧
      (iterations_loop x0 y0 max fuel x y iter).2.2 ≤ max := by
  intro fuel
  induction fuel with
  | zero => intro x y iter h; simp [iterations_loop, h]
  | succ n ih =>
    intro x y iter h
    simp only [iterations_loop]
    split
    · rename_i hg
      have := ih (x * x - y * y + x0) (((2 : Int) : F) * x * y + y0) (iter + 1) (by omega)
      omega
    · simp [h]

theorem iterations_loop_exit (x0 y0 : F) (max : Int) :
    ∀ (fuel : Nat) (x y : F) (iter : Int), (max - iter).toNat ≤ fuel →
      ¬ loop_guard max (iterations_loop x0 y0 max fuel x y iter) := by
  intro fuel
  induction fuel with
  | zero =>
    intro x y iter h
    simp only [iterations_loop, loop_guard]
    intro hg
    omega
  | succ n ih =>
    intro x y iter h
    simp only [iterations_loop]
    split
    · rename_i hg
      exact ih _ _ _ (by omega)
    · rename_i hg
      exact hg

theorem iterations_loop_fuel (x0 y0 : F) (max : Int) :
    ∀ (fuel : Nat) (x y : F) (iter : Int), (max - iter).toNat ≤ fuel →
      iterations_loop x0 y0 max fuel x y iter
        = iterations_loop x0 y0 max (max - iter).toNat x y iter := by
  intro fuel
  induction fuel with
  | zero =>
    intro x y iter h
    have : (max - iter).toNat = 0 := by omega
    rw [this]
  | succ n ih =>
    intro x y iter h
    by_cases hg : x * x + y * y ≤ ((4 : Int) : F) ∧ iter < max
    · obtain ⟨k, hk⟩ : ∃ k, (max - iter).toNat = k + 1 := ⟨(max - iter).toNat - 1, by omega⟩
      rw [hk]
      simp only [iterations_loop, if_pos hg]
      rw [ih _ _ _ (by omega)]
      have : (max - (iter + 1)).toNat = k := by omega
      rw [this]
    · cases hk : (max - iter).toNat with
      | zero => simp only [iterations_loop, if_neg hg]
      | succ k => simp only [iterations_loop, if_neg hg]

end LoopFacts

section EvaluatorFacts

variable {F : Type} [Add F] [Sub F] [Mul F] [IntCast F] [LE F]
  [DecidableRel (fun a b : F => a ≤ b)]

/-- C4. For every point `(x, y)`, in any arithmetic, and every `max ≥ 1`: the
loop of `iterations_at_point` stops within `max` steps (a budget of `max`
steps, or any larger one, ends in the same state, and in that state the loop
guard is false); the counter handed to `iteration_to_color` satisfies
`0 ≤ count ≤ max`; and `count < max` only if the final iterate failed the test
`x*x + y*y ≤ 4`, which in exact arithmetic says that its squared magnitude is
greater than 4 (last part of the statement). -/
theorem iterations_at_point_bounded (x y : F) (max : Int) (hmax : 1 ≤ max) :
    (∀ fuel : Nat, max.toNat ≤ fuel →
      iterations_loop x y max fuel x y 0 = iterations_final x y max) ∧
    ¬ loop_guard max (iterations_final x y max) ∧
    0 ≤ iterations_count x y max ∧
    iterations_count x y max ≤ max ∧
    (iterations_count x y max < max →
      ¬ ((iterations_final x y max).1 * (iterations_final x y max).1
          + (iterations_final x y max).2.1 * (iterations_final x y max).2.1
          ≤ ((4 : Int) : F))) ∧
    iterations_at_point x y max = iteration_to_color (iterations_count x y max) max ∧
    (∀ p q : ℚ, iterations_count p q max < max →
      4 < (iterations_final p q max).1 * (iterations_final p q max).1
          + (iterations_final p q max).2.1 * (iterations_final p q max).2.1) := by
  have hexit : ¬ loop_guard max (iterations_final x y max) :=
    iterations_loop_exit x y max max.toNat x y 0 (by simp)
  have hcnt := iterations_loop_counter x y max max.toNat x y 0 (by omega)
  refine ⟨?_, hexit, hcnt.1, hcnt.2, ?_, rfl, ?_⟩
  · intro fuel hf
    have := iterations_loop_fuel x y max fuel x y 0 (by simpa using hf)
    simpa [iterations_final] using this
  · intro hlt hle
    exact hexit ⟨hle, hlt⟩
  · intro p q hlt
    have hq : ¬ loop_guard max (iterations_final p q max) :=
      iterations_loop_exit p q max max.toNat p q 0 (by simp)
    by_contra hle
    refine hq ⟨?_, hlt⟩
    rw [Int.cast_ofNat]
    exact not_lt.mp hle

end EvaluatorFacts

/-! ## Known points, in exact arithmetic -/

theorem iterations_loop_origin (max : Int) :
    ∀ (fuel : Nat) (iter : Int), iter + fuel ≤ max →
      iterations_loop (0 : ℚ) 0 max fuel 0 0 iter = (0, 0, iter + fuel) := by
  intro fuel
  induction fuel with
  | zero => intro iter _; simp [iterations_loop]
  | succ n ih =>
    intro iter h
    have hlt : iter < max := by push_cast at h; omega
    have h4 : (0 : ℚ) ≤ 4 := by norm_num
    simp only [iterations_loop, mul_zero, add_zero, sub_zero, Int.cast_ofNat, h4, hlt,
      and_self, if_true]
    rw [ih (iter + 1) (by push_cast at h; omega)]
    have e : iter + 1 + (n : Int) = iter + ((n + 1 : Nat) : Int) := by push_cast; omega
    rw [e]

theorem iterations_final_origin (max : Int) (hmax : 0 ≤ max) :
    iterations_final (0 : ℚ) 0 max = (0, 0, max) := by
  have := iterations_loop_origin max max.toNat 0 (by simp [Int.toNat_of_nonneg hmax])
  simpa [iterations_final, Int.toNat_of_nonneg hmax] using this

theorem iterations_final_two_zero (max : Int) (hmax : 1 ≤ max) :
    iterations_final (2 : ℚ) 0 max = (6, 0, 1) := by
  obtain ⟨k, hk⟩ : ∃ k, max.toNat = k + 1 := ⟨max.toNat - 1, by omega⟩
  have hlt : (0 : Int) < max := by omega
  have h1 : (2 : ℚ) * 2 + 0 * 0 ≤ 4 := by norm_num
  have h2 : ¬ ((6 : ℚ) * 6 + 0 * 0 ≤ 4) := by norm_num
  have e1 : (2 : ℚ) * 2 - 0 * 0 + 2 = 6 := by norm_num
  have e2 : (2 : ℚ) * 2 * 0 + 0 = 0 := by norm_num
  simp only [iterations_final, hk, iterations_loop, Int.cast_ofNat, h1, hlt, and_self, if_true,
    e1, e2, zero_add]
  cases k with
  | zero => simp [iterations_loop]
  | succ n => simp only [iterations_loop, Int.cast_ofNat, h2, false_and, if_false]

theorem iterations_count_origin (max : Int) (hmax : 0 ≤ max) :
    iterations_count (0 : ℚ) 0 max = max := by
  simp [iterations_count, iterations_final_origin max hmax]

theorem iterations_at_point_origin (max : Int) (hmax : 0 ≤ max) :
    iterations_at_point (0 : ℚ) 0 max = iteration_to_color max max := by
  rw [iterations_at_point, iterations_count_origin max hmax]

theorem iterations_count_two_zero (max : Int) (hmax : 1 ≤ max) :
    iterations_count (2 : ℚ) 0 max = 1 := by
  simp [iterations_count, iterations_final_two_zero max hmax]

theorem iterations_at_point_two_zero (max : Int) (hmax : 1 ≤ max) :
    iterations_at_point (2 : ℚ) 0 max = iteration_to_color 1 max := by
  rw [iterations_at_point, iterations_count_two_zero max hmax]

/-- C5, as stated, fails: at `max = 8421505` the origin still runs the loop
`max` times, but `255 * max` leaves the range of a 32-bit `int` and the gray
level comes out as `-254`, not `255`. -/
theorem origin_color_counterexample :
    (1 : Int) ≤ 8421505 ∧ iterations_count (0 : ℚ) 0 8421505 = 8421505 ∧
    iterations_at_point (0 : ℚ) 0 8421505 = MAKE_RGBA (-254) (-254) (-254) 0 ∧
    iterations_at_point (0 : ℚ) 0 8421505 ≠ MAKE_RGBA 255 255 255 0 := by
  have hv : iterations_at_point (0 : ℚ) 0 8421505 = MAKE_RGBA (-254) (-254) (-254) 0 :=
    (iterations_at_point_origin 8421505 (by omega)).trans (by decide)
  refine ⟨by omega, iterations_count_origin 8421505 (by omega), hv, ?_⟩
  rw [hv]; decide

/-- C5, amended. For `1 ≤ max ≤ 8421504`, `iterations_at_point(0, 0, max)` runs
the loop exactly `max` times with the iterate staying at `(0, 0)` (after `k`
steps, `k ≤ max`, the state is `(0, 0, k)`), so `count = max`, and the color
returned is `MAKE_RGBA(255, 255, 255, 0)`. -/
theorem origin_color (max : Int) (h1 : 1 ≤ max) (h2 : max ≤ 8421504) :
    (∀ k : Nat, (k : Int) ≤ max →
      iterations_loop (0 : ℚ) 0 max k 0 0 0 = (0, 0, (k : Int))) ∧
    iterations_final (0 : ℚ) 0 max = (0, 0, max) ∧
    iterations_count (0 : ℚ) 0 max = max ∧
    iterations_at_point (0 : ℚ) 0 max = MAKE_RGBA 255 255 255 0 := by
  refine ⟨?_, iterations_final_origin max (by omega), iterations_count_origin max (by omega), ?_⟩
  · intro k hk
    simpa using iterations_loop_origin max k 0 (by simpa using hk)
  · rw [iterations_at_point_origin max (by omega),
      iteration_to_color_of_range (by omega) (by omega) (by omega)]
    have : Int.tdiv (255 * max) max = 255 := by
      rw [Int.tdiv_eq_ediv (by omega) (by omega)]
      exact Int.mul_ediv_cancel _ (by omega)
    rw [this]

/-- The amended C5 at the program's default cap, `max = 1000`. -/
theorem origin_color_witness :
    iterations_count (0 : ℚ) 0 1000 = 1000 ∧
    iterations_at_point (0 : ℚ) 0 1000 = MAKE_RGBA 255 255 255 0 :=
  ⟨(origin_color 1000 (by omega) (by omega)).2.2.1,
    (origin_color 1000 (by omega) (by omega)).2.2.2⟩

/-- C8, as stated, fails: at `max = 1` the point `(2, 0)` stops with
`count = 1 = max`, whose color is the brightest one, gray level 255. -/
theorem escaping_point_counterexample :
    (1 : Int) ≤ 1 ∧ iterations_count (2 : ℚ) 0 1 = 1 ∧
    iterations_at_point (2 : ℚ) 0 1 = MAKE_RGBA 255 255 255 0 ∧
    ¬ (2 * (MAKE_RGBA 255 255 255 0).r < 255) := by
  exact ⟨by omega, iterations_count_two_zero 1 (by omega),
    (iterations_at_point_two_zero 1 (by omega)).trans (by decide), by decide⟩

/-- C8, amended. For every `max ≥ 1`, `iterations_at_point(2.0, 0.0, max)` stops
with an iteration count of exactly 1 (at most 1), at the iterate `(6, 0)`, and
returns the gray level `255 / max` on every channel; for `max ≥ 2` that gray
level is nearer to 0 than to 255. -/
theorem escaping_point (max : Int) (hmax : 1 ≤ max) :
    iterations_final (2 : ℚ) 0 max = (6, 0, 1) ∧
    iterations_count (2 : ℚ) 0 max ≤ 1 ∧
    iterations_at_point (2 : ℚ) 0 max = MAKE_RGBA (255 / max) (255 / max) (255 / max) 0 ∧
    (2 ≤ max → 0 ≤ 255 / max ∧ 2 * (255 / max) < 255) := by
  have hv : iterations_at_point (2 : ℚ) 0 max = MAKE_RGBA (255 / max) (255 / max) (255 / max) 0 := by
    rw [iterations_at_point_two_zero max hmax,
      iteration_to_color_of_range (by omega) (by omega) (by omega)]
    have : Int.tdiv (255 * 1) max = 255 / max := by
      rw [Int.tdiv_eq_ediv (by omega) (by omega)]; simp
    rw [this]
  refine ⟨iterations_final_two_zero max hmax, ?_, hv, ?_⟩
  · rw [iterations_count_two_zero max hmax]
  · intro h2
    have hlo : 0 ≤ 255 / max := Int.ediv_nonneg (by omega) (by omega)
    have hhi : 255 / max < 128 := Int.ediv_lt_of_lt_mul (by omega) (by omega)
    omega

/-- The amended C8 at `max = 1000`: count 1, gray level 0. -/
theorem escaping_point_witness :
    iterations_final (2 : ℚ) 0 1000 = (6, 0, 1) ∧
    iterations_at_point (2 : ℚ) 0 1000 = MAKE_RGBA (255 / 1000) (255 / 1000) (255 / 1000) 0 :=
  ⟨(escaping_point 1000 (by omega)).1, (escaping_point 1000 (by omega)).2.2.1⟩

/-- C4 at the point `(2, 0)` with `max = 50`, in exact arithmetic: the loop
stops at count 1, below `max`, at the iterate `(6, 0)` whose squared magnitude
36 is not `≤ 4`. -/
theorem iterations_at_point_bounded_witness :
    (0 ≤ iterations_count (2 : ℚ) 0 50 ∧ iterations_count (2 : ℚ) 0 50 ≤ 50) ∧
    iterations_final (2 : ℚ) 0 50 = (6, 0, 1) :=
  ⟨⟨(iterations_at_point_bounded (2 : ℚ) 0 50 (by omega)).2.2.1,
    (iterations_at_point_bounded (2 : ℚ) 0 50 (by omega)).2.2.2.1⟩,
    iterations_final_two_zero 50 (by omega)⟩

/-! ## The row partition of `compute_image` -/

theorem rows_per_thread_facts (H T : Int) (hH : 0 ≤ H) (hT : 1 ≤ T) :
    0 ≤ Int.tdiv H T ∧ T * Int.tdiv H T ≤ H ∧ H < T * Int.tdiv H T + T := by
  rw [Int.tdiv_eq_ediv hH (by omega)]
  exact ⟨Int.ediv_nonneg hH (by omega), Int.mul_ediv_self_le (by omega),
    Int.lt_mul_ediv_self_add (by omega)⟩

theorem partition_start_row {F : Type} (xmin xmax ymin ymax : F) (max H T i : Int) :
    (thread_data xmin xmax ymin ymax max H T (Int.tdiv H T) i).start_row = i * Int.tdiv H T := rfl

theorem partition_end_row {F : Type} (xmin xmax ymin ymax : F) (max H T i : Int) :
    (thread_data xmin xmax ymin ymax max H T (Int.tdiv H T) i).end_row
      = if i = T - 1 then H else (i + 1) * Int.tdiv H T := rfl

/-- A row of a worker's range lies in `[0, H)`. -/
theorem partition_within {F : Type} (xmin xmax ymin ymax : F) (max H T i r : Int)
    (hH : 0 ≤ H) (hT : 1 ≤ T) (hi0 : 0 ≤ i) (hi : i < T)
    (h1 : (thread_data xmin xmax ymin ymax max H T (Int.tdiv H T) i).start_row ≤ r)
    (h2 : r < (thread_data xmin xmax ymin ymax max H T (Int.tdiv H T) i).end_row) :
    0 ≤ r ∧ r < H := by
  obtain ⟨hq0, hq1, _⟩ := rows_per_thread_facts H T hH hT
  rw [partition_start_row] at h1
  rw [partition_end_row] at h2
  have hs : 0 ≤ i * Int.tdiv H T := mul_nonneg hi0 hq0
  refine ⟨by omega, ?_⟩
  split at h2
  · exact h2
  · have : (i + 1) * Int.tdiv H T ≤ T * Int.tdiv H T :=
      mul_le_mul_of_nonneg_right (by omega) hq0
    omega

/-- Every row of `[0, H)` lies in the range of some worker. -/
theorem partition_covers {F : Type} (xmin xmax ymin ymax : F) (max H T r : Int)
    (hH : 0 ≤ H) (hT : 1 ≤ T) (hr0 : 0 ≤ r) (hr : r < H) :
    ∃ i : Int, 0 ≤ i ∧ i < T ∧
      (thread_data xmin xmax ymin ymax max H T (Int.tdiv H T) i).start_row ≤ r ∧
      r < (thread_data xmin xmax ymin ymax max H T (Int.tdiv H T) i).end_row := by
  obtain ⟨hq0, hq1, _⟩ := rows_per_thread_facts H T hH hT
  by_cases hlast : r < (T - 1) * Int.tdiv H T
  · have hq : 0 < Int.tdiv H T := by
      rcases hq0.lt_or_eq with h | h
      · exact h
      · rw [← h] at hlast; simp at hlast; omega
    have hi : r / Int.tdiv H T < T - 1 := Int.ediv_lt_of_lt_mul hq hlast
    refine ⟨r / Int.tdiv H T, Int.ediv_nonneg hr0 hq0, by omega, ?_, ?_⟩
    · rw [partition_start_row]
      exact Int.ediv_mul_le r (by omega)
    · rw [partition_end_row, if_neg (by omega)]
      exact Int.lt_ediv_add_one_mul_self r hq
  · refine ⟨T - 1, by omega, by omega, ?_, ?_⟩
    · rw [partition_start_row]; omega
    · rw [partition_end_row, if_pos rfl]; exact hr

/-- The ranges of two different workers have no row in common. -/
theorem partition_disjoint {F : Type} (xmin xmax ymin ymax : F) (max H T i j r : Int)
    (hH : 0 ≤ H) (hT : 1 ≤ T) (hij : i < j) (hj : j < T)
    (h2 : r < (thread_data xmin xmax ymin ymax max H T (Int.tdiv H T) i).end_row)
    (h3 : (thread_data xmin xmax ymin ymax max H T (Int.tdiv H T) j).start_row ≤ r) : False := by
  obtain ⟨hq0, _, _⟩ := rows_per_thread_facts H T hH hT
  rw [partition_end_row, if_neg (by omega)] at h2
  rw [partition_start_row] at h3
  have : (i + 1) * Int.tdiv H T ≤ j * Int.tdiv H T :=
    mul_le_mul_of_nonneg_right (by omega) hq0
  omega

/-! ## One worker: what `divide_threads` writes -/

theorem Filled_none (v : Int → Int → RGBA) (R : Int → Int → Prop) (bm : bitmap)
    (hR : ∀ c r, ¬ R c r) : Filled v R bm bm :=
  ⟨rfl, rfl, fun c r h => absurd h (hR c r), fun _ _ _ => rfl⟩

theorem Filled_step (v : Int → Int → RGBA) (R1 R2 R : Int → Int → Prop) (a b c : bitmap)
    (h1 : Filled v R1 a b) (h2 : Filled v R2 b c) (hR : ∀ x y, R x y ↔ R1 x y ∨ R2 x y) :
    Filled v R a c := by
  obtain ⟨w1, e1, f1, g1⟩ := h1
  obtain ⟨w2, e2, f2, g2⟩ := h2
  refine ⟨w2.trans w1, e2.trans e1, ?_, ?_⟩
  · intro x y h
    by_cases h2 : R2 x y
    · exact f2 x y h2
    · rw [g2 x y h2]
      rcases (hR x y).1 h with h1 | h1
      · exact f1 x y h1
      · exact absurd h1 h2
  · intro x y h
    have n1 : ¬ R1 x y := fun k => h ((hR x y).2 (Or.inl k))
    have n2 : ¬ R2 x y := fun k => h ((hR x y).2 (Or.inr k))
    rw [g2 x y n2, g1 x y n1]

theorem Filled_set (v : Int → Int → RGBA) (bm : bitmap) (i j : Int) :
    Filled v (fun c r => c = i ∧ r = j) bm (bitmap_set bm i j (v i j)) := by
  refine ⟨rfl, rfl, ?_, ?_⟩
  · rintro c r ⟨rfl, rfl⟩
    simp [bitmap_set]
  · intro c r h
    simp [bitmap_set, h]

theorem WroteOnce_none (R : Int → Int → Prop) (bm : bitmap) (hR : ∀ c r, ¬ R c r) :
    WroteOnce R bm bm :=
  ⟨[], rfl, List.nodup_nil, fun c r => by simp [hR c r]⟩

theorem WroteOnce_step (R1 R2 R : Int → Int → Prop) (a b c : bitmap)
    (h1 : WroteOnce R1 a b) (h2 : WroteOnce R2 b c)
    (hR : ∀ x y, R x y ↔ R1 x y ∨ R2 x y) (hd : ∀ x y, R1 x y → R2 x y → False) :
    WroteOnce R a c := by
  obtain ⟨ws1, l1, n1, m1⟩ := h1
  obtain ⟨ws2, l2, n2, m2⟩ := h2
  refine ⟨ws2 ++ ws1, by rw [l2, l1, List.append_assoc], ?_, ?_⟩
  · rw [List.nodup_append]
    refine ⟨n2, n1, ?_⟩
    rintro ⟨x, y⟩ hx2 hx1
    exact hd x y ((m1 x y).1 hx1) ((m2 x y).1 hx2)
  · intro x y
    rw [List.mem_append, m1, m2, hR]
    exact or_comm

theorem WroteOnce_set (bm : bitmap) (i j : Int) (color : RGBA) :
    WroteOnce (fun c r => c = i ∧ r = j) bm (bitmap_set bm i j color) :=
  ⟨[(i, j)], rfl, List.nodup_singleton _, fun c r => by simp⟩

section WorkerFacts

variable {F : Type} [Add F] [Sub F] [Mul F] [IntCast F] [LE F]
  [DecidableRel (fun a b : F => a ≤ b)] [Div F]

theorem divide_threads_cols_spec (data : ThreadParameters F) (width j H : Int) :
    ∀ (fuel : Nat) (i : Int) (bm : bitmap), (width - i).toNat ≤ fuel → bitmap_height bm = H →
      Filled (point_color data.xmin data.xmax data.ymin data.ymax data.max_iterations width H)
        (fun c r => (i ≤ c ∧ c < width) ∧ r = j) bm
        (divide_threads_cols data width j fuel i bm) ∧
      WroteOnce (fun c r => (i ≤ c ∧ c < width) ∧ r = j) bm
        (divide_threads_cols data width j fuel i bm) := by
  intro fuel
  induction fuel with
  | zero =>
    intro i bm hf _
    have hR : ∀ c r : Int, ¬ ((i ≤ c ∧ c < width) ∧ r = j) := by
      intro c r h; omega
    exact ⟨Filled_none _ _ _ hR, WroteOnce_none _ _ hR⟩
  | succ n ih =>
    intro i bm hf hH
    by_cases hi : i < width
    · simp only [divide_threads_cols, if_pos hi]
      have hset : bitmap_set bm i j (iterations_at_point
            (data.xmin + (i : F) * (data.xmax - data.xmin) / (width : F))
            (data.ymin + (j : F) * (data.ymax - data.ymin) / (bitmap_height bm : F))
            data.max_iterations)
          = bitmap_set bm i j
              (point_color data.xmin data.xmax data.ymin data.ymax data.max_iterations
                width H i j) := by
        rw [hH]; rfl
      rw [hset]
      obtain ⟨f2, w2⟩ := ih (i + 1)
        (bitmap_set bm i j
          (point_color data.xmin data.xmax data.ymin data.ymax data.max_iterations width H i j))
        (by omega) hH
      have hR : ∀ x y : Int, ((i ≤ x ∧ x < width) ∧ y = j) ↔
          (x = i ∧ y = j) ∨ ((i + 1 ≤ x ∧ x < width) ∧ y = j) := by
        intro x y; constructor
        · rintro ⟨⟨a, b⟩, c⟩
          by_cases hx : x = i
          · exact Or.inl ⟨hx, c⟩
          · exact Or.inr ⟨⟨by omega, b⟩, c⟩
        · rintro (⟨a, b⟩ | ⟨⟨a, b⟩, c⟩)
          · exact ⟨⟨by omega, by omega⟩, b⟩
          · exact ⟨⟨by omega, b⟩, c⟩
      refine ⟨Filled_step _ _ _ _ _ _ _ (Filled_set _ bm i j) f2 hR,
        WroteOnce_step _ _ _ _ _ _ (WroteOnce_set bm i j _) w2 hR ?_⟩
      rintro x y ⟨a, _⟩ ⟨⟨b, _⟩, _⟩
      omega
    · simp only [divide_threads_cols, if_neg hi]
      have hR : ∀ c r : Int, ¬ ((i ≤ c ∧ c < width) ∧ r = j) := by
        intro c r h; omega
      exact ⟨Filled_none _ _ _ hR, WroteOnce_none _ _ hR⟩

theorem divide_threads_rows_spec (data : ThreadParameters F) (width H : Int) :
    ∀ (fuel : Nat) (j : Int) (bm : bitmap), (data.end_row - j).toNat ≤ fuel →
      bitmap_height bm = H →
      Filled (point_color data.xmin data.xmax data.ymin data.ymax data.max_iterations width H)
        (fun c r => (0 ≤ c ∧ c < width) ∧ (j ≤ r ∧ r < data.end_row)) bm
        (divide_threads_rows data width fuel j bm) ∧
      WroteOnce (fun c r => (0 ≤ c ∧ c < width) ∧ (j ≤ r ∧ r < data.end_row)) bm
        (divide_threads_rows data width fuel j bm) := by
  intro fuel
  induction fuel with
  | zero =>
    intro j bm hf _
    have hR : ∀ c r : Int, ¬ ((0 ≤ c ∧ c < width) ∧ (j ≤ r ∧ r < data.end_row)) := by
      intro c r h; omega
    exact ⟨Filled_none _ _ _ hR, WroteOnce_none _ _ hR⟩
  | succ n ih =>
    intro j bm hf hH
    by_cases hj : j < data.end_row
    · simp only [divide_threads_rows, if_pos hj]
      obtain ⟨f1, w1⟩ := divide_threads_cols_spec data width j H width.toNat 0 bm (by simp) hH
      have hH1 : bitmap_height (divide_threads_cols data width j width.toNat 0 bm) = H := by
        rw [← hH]; unfold bitmap_height; rw [f1.2.1]
      obtain ⟨f2, w2⟩ := ih (j + 1) _ (by omega) hH1
      have hR : ∀ x y : Int, ((0 ≤ x ∧ x < width) ∧ (j ≤ y ∧ y < data.end_row)) ↔
          ((0 ≤ x ∧ x < width) ∧ y = j) ∨
            ((0 ≤ x ∧ x < width) ∧ (j + 1 ≤ y ∧ y < data.end_row)) := by
        intro x y; constructor
        · rintro ⟨a, b, c⟩
          by_cases hy : y = j
          · exact Or.inl ⟨a, hy⟩
          · exact Or.inr ⟨a, by omega, c⟩
        · rintro (⟨a, b⟩ | ⟨a, b, c⟩)
          · exact ⟨a, by omega, by omega⟩
          · exact ⟨a, by omega, c⟩
      refine ⟨Filled_step _ _ _ _ _ _ _ f1 f2 hR, WroteOnce_step _ _ _ _ _ _ w1 w2 hR ?_⟩
      rintro x y ⟨_, a⟩ ⟨_, b, _⟩
      omega
    · simp only [divide_threads_rows, if_neg hj]
      have hR : ∀ c r : Int, ¬ ((0 ≤ c ∧ c < width) ∧ (j ≤ r ∧ r < data.end_row)) := by
        intro c r h; omega
      exact ⟨Filled_none _ _ _ hR, WroteOnce_none _ _ hR⟩

/-- One run of `divide_threads`: the pixels of the worker's range receive
their colors, each through exactly one call of `bitmap_set`; nothing else is
written. -/
theorem divide_threads_spec (data : ThreadParameters F) (bm : bitmap) :
    Filled (point_color data.xmin data.xmax data.ymin data.ymax data.max_iterations
        (bitmap_width bm) (bitmap_height bm))
      (in_range data (bitmap_width bm)) bm (divide_threads data bm) ∧
    WroteOnce (in_range data (bitmap_width bm)) bm (divide_threads data bm) :=
  divide_threads_rows_spec data (bitmap_width bm) (bitmap_height bm)
    (data.end_row - data.start_row).toNat data.start_row bm (le_refl _) rfl

theorem divide_threads_empty (data : ThreadParameters F) (bm : bitmap)
    (h : data.end_row ≤ data.start_row) : divide_threads data bm = bm := by
  have : (data.end_row - data.start_row).toNat = 0 := by omega
  simp only [divide_threads, this, divide_threads_rows]

end WorkerFacts

section FrameClaim

variable {F : Type} [Add F] [Sub F] [Mul F] [IntCast F] [LE F]
  [DecidableRel (fun a b : F => a ≤ b)] [Div F]

/-- C9. One run of `divide_threads` with the row range `[start_row, end_row)` on
an image of width `W`, for an iteration cap other than 0 (the data model has a
positive cap; with a cap of 0 the color scaling `255 * i / max` has a zero
divisor): `bitmap_set` is called exactly once on each pixel `(col, row)` with
`0 ≤ col < W` and `start_row ≤ row < end_row` and on no other pixel (the calls
made during the run are the list `ws`, which has no repetition and holds
exactly those pixels), each of those pixels receives its color, and every
other pixel, the width and the height are unchanged. For every cap, a worker
with an empty range (`end_row ≤ start_row`) returns the image as it received
it. The bounds `0 ≤ start_row` and `end_row ≤ height` are not needed. -/
theorem divide_threads_frame (data : ThreadParameters F) (bm : bitmap) :
    (data.max_iterations ≠ 0 →
      (∃ ws : List (Int × Int), (divide_threads data bm).log = ws ++ bm.log ∧ ws.Nodup ∧
        ∀ c r : Int, (c, r) ∈ ws ↔
          ((0 ≤ c ∧ c < bitmap_width bm) ∧ (data.start_row ≤ r ∧ r < data.end_row))) ∧
      (∀ c r : Int, (0 ≤ c ∧ c < bitmap_width bm) ∧ (data.start_row ≤ r ∧ r < data.end_row) →
        (divide_threads data bm).data c r =
          iterations_at_point
            (data.xmin + (c : F) * (data.xmax - data.xmin) / (bitmap_width bm : F))
            (data.ymin + (r : F) * (data.ymax - data.ymin) / (bitmap_height bm : F))
            data.max_iterations) ∧
      (∀ c r : Int,
        ¬ ((0 ≤ c ∧ c < bitmap_width bm) ∧ (data.start_row ≤ r ∧ r < data.end_row)) →
        (divide_threads data bm).data c r = bm.data c r) ∧
      (divide_threads data bm).width = bm.width ∧
      (divide_threads data bm).height = bm.height) ∧
    (data.end_row ≤ data.start_row → divide_threads data bm = bm) := by
  obtain ⟨⟨hw, hh, hin, hout⟩, ⟨ws, hlog, hnd, hmem⟩⟩ := divide_threads_spec data bm
  refine ⟨fun _ => ⟨⟨ws, hlog, hnd, hmem⟩, ?_, ?_, hw, hh⟩, divide_threads_empty data bm⟩
  · intro c r h
    exact hin c r h
  · intro c r h
    exact hout c r h

end FrameClaim

/-- C9 on a 2 x 3 image with cap 5: a worker with the rows `[1, 2)` makes two
calls of `bitmap_set`, on `(0, 1)` and then on `(1, 1)`, and the run changes
neither the width nor the height; a worker with the empty range `[2, 2)`
returns the image as it was. -/
theorem divide_threads_frame_witness :
    (divide_threads (ThreadParameters.mk (-2 : ℚ) 2 (-2) 2 5 1 2)
      (blank_image 2 3 (MAKE_RGBA 0 0 255 0))).log = [(1, 1), (0, 1)] ∧
    (divide_threads (ThreadParameters.mk (-2 : ℚ) 2 (-2) 2 5 1 2)
      (blank_image 2 3 (MAKE_RGBA 0 0 255 0))).width
        = (blank_image 2 3 (MAKE_RGBA 0 0 255 0)).width ∧
    divide_threads (ThreadParameters.mk (-2 : ℚ) 2 (-2) 2 5 2 2)
      (blank_image 2 3 (MAKE_RGBA 0 0 255 0)) = blank_image 2 3 (MAKE_RGBA 0 0 255 0) :=
  ⟨by decide,
    ((divide_threads_frame (ThreadParameters.mk (-2 : ℚ) 2 (-2) 2 5 1 2)
      (blank_image 2 3 (MAKE_RGBA 0 0 255 0))).1 (by decide)).2.2.2.1,
    (divide_threads_frame (ThreadParameters.mk (-2 : ℚ) 2 (-2) 2 5 2 2)
      (blank_image 2 3 (MAKE_RGBA 0 0 255 0))).2 (by decide)⟩

/-! ## All workers: what `compute_image` writes -/

section ImageFacts

variable {F : Type} [Add F] [Sub F] [Mul F] [IntCast F] [LE F]
  [DecidableRel (fun a b : F => a ≤ b)] [Div F]

theorem run_workers_filled (xmin xmax ymin ymax : F) (max W H : Int) :
    ∀ (ws : List (ThreadParameters F)) (bm : bitmap),
      (∀ w ∈ ws, same_view xmin xmax ymin ymax max w) →
      bitmap_width bm = W → bitmap_height bm = H →
      Filled (point_color xmin xmax ymin ymax max W H)
        (fun c r => ∃ w ∈ ws, in_range w W c r) bm (run_workers ws bm) := by
  intro ws
  induction ws with
  | nil =>
    intro bm _ _ _
    exact Filled_none _ _ _ (by simp)
  | cons w ws ih =>
    intro bm hv hW hH
    obtain ⟨e1, e2, e3, e4, e5⟩ := hv w (List.mem_cons_self _ _)
    have f1 := (divide_threads_spec w bm).1
    rw [e1, e2, e3, e4, e5, hW, hH] at f1
    have hW1 : bitmap_width (divide_threads w bm) = W := by
      rw [← hW]; unfold bitmap_width; rw [f1.1]
    have hH1 : bitmap_height (divide_threads w bm) = H := by
      rw [← hH]; unfold bitmap_height; rw [f1.2.1]
    have f2 := ih (divide_threads w bm) (fun v hv2 => hv v (List.mem_cons_of_mem _ hv2)) hW1 hH1
    have hrun : run_workers (w :: ws) bm = run_workers ws (divide_threads w bm) := rfl
    rw [hrun]
    refine Filled_step _ _ _ _ _ _ _ f1 f2 ?_
    intro x y
    simp only [List.mem_cons, exists_eq_or_imp]

end ImageFacts

theorem mem_create_threads {F : Type} (xmin xmax ymin ymax : F) (max H T : Int)
    (w : ThreadParameters F) :
    ∀ (fuel : Nat) (i0 : Int), (T - i0).toNat ≤ fuel →
      (w ∈ create_threads xmin xmax ymin ymax max H T (Int.tdiv H T) fuel i0 ↔
        ∃ i : Int, i0 ≤ i ∧ i < T ∧ w = thread_data xmin xmax ymin ymax max H T (Int.tdiv H T) i) := by
  intro fuel
  induction fuel with
  | zero =>
    intro i0 hf
    simp only [create_threads, List.not_mem_nil, false_iff]
    rintro ⟨i, h1, h2, _⟩
    omega
  | succ n ih =>
    intro i0 hf
    by_cases hi : i0 < T
    · simp only [create_threads, if_pos hi, List.mem_cons, ih (i0 + 1) (by omega)]
      constructor
      · rintro (h | ⟨i, h1, h2, h3⟩)
        · exact ⟨i0, le_refl _, hi, h⟩
        · exact ⟨i, by omega, h2, h3⟩
      · rintro ⟨i, h1, h2, h3⟩
        by_cases hii : i = i0
        · exact Or.inl (hii ▸ h3)
        · exact Or.inr ⟨i, by omega, h2, h3⟩
    · simp only [create_threads, if_neg hi, List.not_mem_nil, false_iff]
      rintro ⟨i, h1, h2, _⟩
      omega

theorem mem_workers {F : Type} (xmin xmax ymin ymax : F) (max H T : Int)
    (w : ThreadParameters F) :
    w ∈ workers xmin xmax ymin ymax max H T (Int.tdiv H T) ↔
      ∃ i : Int, 0 ≤ i ∧ i < T ∧ w = thread_data xmin xmax ymin ymax max H T (Int.tdiv H T) i :=
  mem_create_threads xmin xmax ymin ymax max H T w T.toNat 0 (by simp)

theorem workers_same_view {F : Type} (xmin xmax ymin ymax : F) (max H T : Int)
    (w : ThreadParameters F) (hw : w ∈ workers xmin xmax ymin ymax max H T (Int.tdiv H T)) :
    same_view xmin xmax ymin ymax max w := by
  obtain ⟨i, _, _, rfl⟩ := (mem_workers xmin xmax ymin ymax max H T w).1 hw
  exact ⟨rfl, rfl, rfl, rfl, rfl⟩

/-- With at least one worker, the ranges of the workers make up the image. -/
theorem workers_cover {F : Type} (xmin xmax ymin ymax : F) (max H T W : Int)
    (hH : 0 ≤ H) (hT : 1 ≤ T) (c r : Int) :
    (∃ w ∈ workers xmin xmax ymin ymax max H T (Int.tdiv H T), in_range w W c r) ↔
      ((0 ≤ c ∧ c < W) ∧ (0 ≤ r ∧ r < H)) := by
  constructor
  · rintro ⟨w, hw, hc, h1, h2⟩
    obtain ⟨i, hi0, hi, rfl⟩ := (mem_workers xmin xmax ymin ymax max H T w).1 hw
    exact ⟨hc, partition_within xmin xmax ymin ymax max H T i r hH hT hi0 hi h1 h2⟩
  · rintro ⟨hc, hr0, hr⟩
    obtain ⟨i, hi0, hi, h1, h2⟩ := partition_covers xmin xmax ymin ymax max H T r hH hT hr0 hr
    exact ⟨thread_data xmin xmax ymin ymax max H T (Int.tdiv H T) i,
      (mem_workers xmin xmax ymin ymax max H T _).2 ⟨i, hi0, hi, rfl⟩, hc, h1, h2⟩

section ImageClaims

variable {F : Type} [Add F] [Sub F] [Mul F] [IntCast F] [LE F]
  [DecidableRel (fun a b : F => a ≤ b)] [Div F]

/-- The image after the workers of a call with `T ≥ 1` threads have run, in
any order. -/
theorem run_workers_image (bm : bitmap) (xmin xmax ymin ymax : F) (max T : Int) (hT : 1 ≤ T)
    (ws : List (ThreadParameters F))
    (hws : ws.Perm (workers xmin xmax ymin ymax max (bitmap_height bm) T
      (Int.tdiv (bitmap_height bm) T))) :
    Filled (point_color xmin xmax ymin ymax max (bitmap_width bm) (bitmap_height bm))
      (fun c r => (0 ≤ c ∧ c < bitmap_width bm) ∧ (0 ≤ r ∧ r < bitmap_height bm))
      bm (run_workers ws bm) := by
  have hv : ∀ w ∈ ws, same_view xmin xmax ymin ymax max w := fun w hw =>
    workers_same_view xmin xmax ymin ymax max (bitmap_height bm) T w (hws.mem_iff.1 hw)
  have f := run_workers_filled xmin xmax ymin ymax max (bitmap_width bm) (bitmap_height bm)
    ws bm hv rfl rfl
  have hH : (0 : Int) ≤ bitmap_height bm := by unfold bitmap_height; omega
  refine Filled_step _ _ (fun _ _ => False) _ _ _ _ f (Filled_none _ _ _ (fun _ _ h => h)) ?_
  intro x y
  rw [← workers_cover xmin xmax ymin ymax max (bitmap_height bm) T (bitmap_width bm) hH hT x y]
  simp only [or_false]
  constructor
  · rintro ⟨w, hw, h⟩
    exact ⟨w, hws.mem_iff.2 hw, h⟩
  · rintro ⟨w, hw, h⟩
    exact ⟨w, hws.mem_iff.1 hw, h⟩

theorem compute_image_ok (bm : bitmap) (xmin xmax ymin ymax : F) (max T : Int) (hT : T ≠ 0) :
    compute_image bm xmin xmax ymin ymax max T
      = Except.ok (run_workers (workers xmin xmax ymin ymax max (bitmap_height bm) T
          (Int.tdiv (bitmap_height bm) T)) bm) := by
  simp only [compute_image, checked_div, if_neg hT]

end ImageClaims

theorem Filled_unique (v : Int → Int → RGBA) (R : Int → Int → Prop) (bm b1 b2 : bitmap)
    (h1 : Filled v R bm b1) (h2 : Filled v R bm b2) :
    b1.data = b2.data ∧ b1.width = b2.width ∧ b1.height = b2.height := by
  obtain ⟨w1, e1, f1, g1⟩ := h1
  obtain ⟨w2, e2, f2, g2⟩ := h2
  refine ⟨?_, w1.trans w2.symm, e1.trans e2.symm⟩
  funext c r
  by_cases h : R c r
  · rw [f1 c r h, f2 c r h]
  · rw [g1 c r h, g2 c r h]

/-- A point whose squared magnitude fails the test `≤ 4` at entry leaves the
loop at once, with count 0. -/
theorem iterations_at_point_escaped {F : Type} [Add F] [Sub F] [Mul F] [IntCast F] [LE F]
    [DecidableRel (fun a b : F => a ≤ b)] (x y : F) (max : Int)
    (h : ¬ (x * x + y * y ≤ ((4 : Int) : F))) :
    iterations_at_point x y max = iteration_to_color 0 max := by
  have hf : iterations_final x y max = (x, y, 0) := by
    unfold iterations_final
    cases max.toNat with
    | zero => rfl
    | succ n => simp only [iterations_loop, h, false_and, if_false]
  simp only [iterations_at_point, iterations_count, hf]

section ImageTheorems

variable {F : Type} [Add F] [Sub F] [Mul F] [IntCast F] [LE F]
  [DecidableRel (fun a b : F => a ≤ b)] [Div F]

/-- C2. For a fixed viewport, fixed image and fixed `max ≥ 1`, and any two
thread counts `T1, T2 ≥ 1`: `compute_image` returns for both, and the two images
agree pixel for pixel (and in width and height); the same holds when the
workers of either call are run one after another in any order. -/
theorem thread_count_invariance (bm : bitmap) (xmin xmax ymin ymax : F) (max T1 T2 : Int)
    (_hmax : 1 ≤ max) (h1 : 1 ≤ T1) (h2 : 1 ≤ T2) :
    (∃ b1 b2 : bitmap,
      compute_image bm xmin xmax ymin ymax max T1 = Except.ok b1 ∧
      compute_image bm xmin xmax ymin ymax max T2 = Except.ok b2 ∧
      b1.data = b2.data ∧ b1.width = b2.width ∧ b1.height = b2.height) ∧
    (∀ ws1 ws2 : List (ThreadParameters F),
      ws1.Perm (workers xmin xmax ymin ymax max (bitmap_height bm) T1
        (Int.tdiv (bitmap_height bm) T1)) →
      ws2.Perm (workers xmin xmax ymin ymax max (bitmap_height bm) T2
        (Int.tdiv (bitmap_height bm) T2)) →
      (run_workers ws1 bm).data = (run_workers ws2 bm).data ∧
      (run_workers ws1 bm).width = (run_workers ws2 bm).width ∧
      (run_workers ws1 bm).height = (run_workers ws2 bm).height) := by
  have key : ∀ ws1 ws2 : List (ThreadParameters F),
      ws1.Perm (workers xmin xmax ymin ymax max (bitmap_height bm) T1
        (Int.tdiv (bitmap_height bm) T1)) →
      ws2.Perm (workers xmin xmax ymin ymax max (bitmap_height bm) T2
        (Int.tdiv (bitmap_height bm) T2)) →
      (run_workers ws1 bm).data = (run_workers ws2 bm).data ∧
      (run_workers ws1 bm).width = (run_workers ws2 bm).width ∧
      (run_workers ws1 bm).height = (run_workers ws2 bm).height := by
    intro ws1 ws2 p1 p2
    exact Filled_unique _ _ bm _ _
      (run_workers_image bm xmin xmax ymin ymax max T1 h1 ws1 p1)
      (run_workers_image bm xmin xmax ymin ymax max T2 h2 ws2 p2)
  refine ⟨⟨_, _, compute_image_ok bm xmin xmax ymin ymax max T1 (by omega),
    compute_image_ok bm xmin xmax ymin ymax max T2 (by omega), ?_⟩, key⟩
  exact key _ _ (List.Perm.refl _) (List.Perm.refl _)

/-- C3. For every thread count `T ≥ 1`, also one greater than the height, and
every `max ≥ 1`, `compute_image` returns, and in the image it returns every pixel `(col, row)`
with `0 ≤ col < W` and `0 ≤ row < H` holds
`iterations_at_point(xmin + col*(xmax-xmin)/W, ymin + row*(ymax-ymin)/H, max)`,
whatever the image held before; width and height are unchanged. The same
holds when the workers are run one after another in any order. -/
theorem compute_image_fills (bm : bitmap) (xmin xmax ymin ymax : F) (max T : Int)
    (_hmax : 1 ≤ max) (hT : 1 ≤ T) :
    (∃ b : bitmap, compute_image bm xmin xmax ymin ymax max T = Except.ok b ∧
      b.width = bm.width ∧ b.height = bm.height ∧
      ∀ col row : Int, 0 ≤ col → col < bitmap_width bm → 0 ≤ row → row < bitmap_height bm →
        b.data col row =
          iterations_at_point (xmin + (col : F) * (xmax - xmin) / (bitmap_width bm : F))
            (ymin + (row : F) * (ymax - ymin) / (bitmap_height bm : F)) max) ∧
    (∀ ws : List (ThreadParameters F),
      ws.Perm (workers xmin xmax ymin ymax max (bitmap_height bm) T
        (Int.tdiv (bitmap_height bm) T)) →
      ∀ col row : Int, 0 ≤ col → col < bitmap_width bm → 0 ≤ row → row < bitmap_height bm →
        (run_workers ws bm).data col row =
          iterations_at_point (xmin + (col : F) * (xmax - xmin) / (bitmap_width bm : F))
            (ymin + (row : F) * (ymax - ymin) / (bitmap_height bm : F)) max) := by
  have key : ∀ ws : List (ThreadParameters F),
      ws.Perm (workers xmin xmax ymin ymax max (bitmap_height bm) T
        (Int.tdiv (bitmap_height bm) T)) →
      Filled (point_color xmin xmax ymin ymax max (bitmap_width bm) (bitmap_height bm))
        (fun c r => (0 ≤ c ∧ c < bitmap_width bm) ∧ (0 ≤ r ∧ r < bitmap_height bm))
        bm (run_workers ws bm) :=
    fun ws p => run_workers_image bm xmin xmax ymin ymax max T hT ws p
  refine ⟨⟨_, compute_image_ok bm xmin xmax ymin ymax max T (by omega), ?_, ?_, ?_⟩, ?_⟩
  · exact (key _ (List.Perm.refl _)).1
  · exact (key _ (List.Perm.refl _)).2.1
  · intro col row c0 c1 r0 r1
    exact (key _ (List.Perm.refl _)).2.2.1 col row ⟨⟨c0, c1⟩, ⟨r0, r1⟩⟩
  · intro ws p col row c0 c1 r0 r1
    exact (key ws p).2.2.1 col row ⟨⟨c0, c1⟩, ⟨r0, r1⟩⟩

/-- C7. The code at the failing input: `compute_image` called with
`thread_count = 0`, on any image, makes no check of its arguments and reports
no configuration error. Its first computation, `height / num_threads`, has a
zero divisor, which is undefined behaviour (the fault `division_by_zero`);
the call returns no image. The claim asks for a rejection before that
division. -/
theorem compute_image_zero_threads (bm : bitmap) (xmin xmax ymin ymax : F) (max : Int) :
    checked_div (bitmap_height bm) 0 = Except.error Fault.division_by_zero ∧
    compute_image bm xmin xmax ymin ymax max 0 = Except.error Fault.division_by_zero ∧
    ∀ b : bitmap, compute_image bm xmin xmax ymin ymax max 0 ≠ Except.ok b := by
  have h : compute_image bm xmin xmax ymin ymax max 0
      = Except.error Fault.division_by_zero := rfl
  refine ⟨rfl, h, ?_⟩
  intro b hb
  rw [h] at hb
  cases hb

end ImageTheorems

/-- C2 on the 100 x 100 image of the end-to-end scenario: the thread counts 1
and 7, and the thread counts 2 and 100 (the height), give the same pixels. -/
theorem thread_count_invariance_witness :
    (∃ b1 b2 : bitmap,
      compute_image (blank_image 100 100 (MAKE_RGBA 0 0 255 0)) (-2 : ℚ) 2 (-2) 2 50 1
        = Except.ok b1 ∧
      compute_image (blank_image 100 100 (MAKE_RGBA 0 0 255 0)) (-2 : ℚ) 2 (-2) 2 50 7
        = Except.ok b2 ∧
      b1.data = b2.data ∧ b1.width = b2.width ∧ b1.height = b2.height) ∧
    (∃ b1 b2 : bitmap,
      compute_image (blank_image 100 100 (MAKE_RGBA 0 0 255 0)) (-2 : ℚ) 2 (-2) 2 50 2
        = Except.ok b1 ∧
      compute_image (blank_image 100 100 (MAKE_RGBA 0 0 255 0)) (-2 : ℚ) 2 (-2) 2 50 100
        = Except.ok b2 ∧
      b1.data = b2.data ∧ b1.width = b2.width ∧ b1.height = b2.height) :=
  ⟨(thread_count_invariance (blank_image 100 100 (MAKE_RGBA 0 0 255 0)) (-2 : ℚ) 2 (-2) 2 50 1 7
      (by omega) (by omega) (by omega)).1,
    (thread_count_invariance (blank_image 100 100 (MAKE_RGBA 0 0 255 0)) (-2 : ℚ) 2 (-2) 2 50 2
      100 (by omega) (by omega) (by omega)).1⟩

/-- C7 on the image of the end-to-end scenario: a call with `thread_count = 0`
ends in the division by zero. -/
theorem compute_image_zero_threads_witness :
    compute_image (blank_image 100 100 (MAKE_RGBA 0 0 255 0)) (-2 : ℚ) 2 (-2) 2 50 0
      = Except.error Fault.division_by_zero :=
  (compute_image_zero_threads (blank_image 100 100 (MAKE_RGBA 0 0 255 0)) (-2 : ℚ) 2 (-2) 2
    50).2.1

/-- C3 on the end-to-end scenario: viewport `(-2, 2, -2, 2)`, a 100 x 100
image, `max = 50`, 4 threads. The pixel `(50, 50)` is the plane point `(0, 0)`
and holds the maximum gray level 255; the four corner pixels hold gray
level 0. -/
theorem compute_image_fills_witness :
    ∃ b : bitmap,
      compute_image (blank_image 100 100 (MAKE_RGBA 0 0 255 0)) (-2 : ℚ) 2 (-2) 2 50 4
        = Except.ok b ∧
      (-2 : ℚ) + ((50 : Int) : ℚ) * (2 - (-2)) / ((100 : Int) : ℚ) = 0 ∧
      b.data 50 50 = MAKE_RGBA 255 255 255 0 ∧
      b.data 0 0 = MAKE_RGBA 0 0 0 0 ∧
      b.data 99 0 = MAKE_RGBA 0 0 0 0 ∧
      b.data 0 99 = MAKE_RGBA 0 0 0 0 ∧
      b.data 99 99 = MAKE_RGBA 0 0 0 0 := by
  obtain ⟨b, hb, _, _, hpix⟩ :=
    (compute_image_fills (blank_image 100 100 (MAKE_RGBA 0 0 255 0)) (-2 : ℚ) 2 (-2) 2 50 4
      (by omega) (by omega)).1
  have hW : bitmap_width (blank_image 100 100 (MAKE_RGBA 0 0 255 0)) = 100 := rfl
  have hH : bitmap_height (blank_image 100 100 (MAKE_RGBA 0 0 255 0)) = 100 := rfl
  rw [hW, hH] at hpix
  have hc : (-2 : ℚ) + ((50 : Int) : ℚ) * (2 - (-2)) / ((100 : Int) : ℚ) = 0 := by norm_num
  have h0 : (-2 : ℚ) + ((0 : Int) : ℚ) * (2 - (-2)) / ((100 : Int) : ℚ) = -2 := by norm_num
  have h99 : (-2 : ℚ) + ((99 : Int) : ℚ) * (2 - (-2)) / ((100 : Int) : ℚ) = 49 / 25 := by
    norm_num
  have dark : iteration_to_color 0 50 = MAKE_RGBA 0 0 0 0 := by decide
  refine ⟨b, hb, hc, ?_, ?_, ?_, ?_, ?_⟩
  · rw [hpix 50 50 (by omega) (by omega) (by omega) (by omega), hc]
    exact (iterations_at_point_origin 50 (by omega)).trans (by decide)
  · rw [hpix 0 0 (by omega) (by omega) (by omega) (by omega), h0]
    exact (iterations_at_point_escaped (-2 : ℚ) (-2) 50 (by norm_num)).trans dark
  · rw [hpix 99 0 (by omega) (by omega) (by omega) (by omega), h0, h99]
    exact (iterations_at_point_escaped (49 / 25 : ℚ) (-2) 50 (by norm_num)).trans dark
  · rw [hpix 0 99 (by omega) (by omega) (by omega) (by omega), h0, h99]
    exact (iterations_at_point_escaped (-2 : ℚ) (49 / 25) 50 (by norm_num)).trans dark
  · rw [hpix 99 99 (by omega) (by omega) (by omega) (by omega), h99]
    exact (iterations_at_point_escaped (49 / 25 : ℚ) (49 / 25) 50 (by norm_num)).trans dark

/-! ## The workers that `compute_image` creates -/

theorem create_threads_length {F : Type} (xmin xmax ymin ymax : F) (max H T q : Int) :
    ∀ (fuel : Nat) (i0 : Int), (T - i0).toNat ≤ fuel →
      (create_threads xmin xmax ymin ymax max H T q fuel i0).length = (T - i0).toNat := by
  intro fuel
  induction fuel with
  | zero =>
    intro i0 hf
    simp only [create_threads, List.length_nil]
    omega
  | succ n ih =>
    intro i0 hf
    by_cases hi : i0 < T
    · simp only [create_threads, if_pos hi, List.length_cons, ih (i0 + 1) (by omega)]
      omega
    · simp only [create_threads, if_neg hi, List.length_nil]
      omega

theorem create_threads_getElem {F : Type} (xmin xmax ymin ymax : F) (max H T q : Int) :
    ∀ (fuel : Nat) (i0 : Int) (k : Nat), (T - i0).toNat ≤ fuel →
      (create_threads xmin xmax ymin ymax max H T q fuel i0)[k]?
        = if i0 + (k : Int) < T then
            some (thread_data xmin xmax ymin ymax max H T q (i0 + (k : Int)))
          else none := by
  intro fuel
  induction fuel with
  | zero =>
    intro i0 k hf
    have : ¬ (i0 + (k : Int) < T) := by omega
    simp only [create_threads, List.getElem?_nil, if_neg this]
  | succ n ih =>
    intro i0 k hf
    by_cases hi : i0 < T
    · simp only [create_threads, if_pos hi]
      cases k with
      | zero =>
        have e : i0 + ((0 : Nat) : Int) = i0 := by simp
        rw [List.getElem?_cons_zero, e, if_pos hi]
      | succ m =>
        have e : i0 + ((m + 1 : Nat) : Int) = i0 + 1 + (m : Int) := by push_cast; omega
        rw [List.getElem?_cons_succ, ih (i0 + 1) m (by omega), e]
    · have : ¬ (i0 + (k : Int) < T) := by omega
      simp only [create_threads, if_neg hi, List.getElem?_nil, if_neg this]

theorem workers_getElem {F : Type} (xmin xmax ymin ymax : F) (max H T q : Int) (k : Nat)
    (w : ThreadParameters F) :
    (workers xmin xmax ymin ymax max H T q)[k]? = some w ↔
      ((k : Int) < T ∧ w = thread_data xmin xmax ymin ymax max H T q (k : Int)) := by
  unfold workers
  rw [create_threads_getElem xmin xmax ymin ymax max H T q T.toNat 0 k (by simp)]
  simp only [zero_add]
  constructor
  · intro h
    split at h
    · rename_i hk
      exact ⟨hk, (Option.some.inj h).symm⟩
    · cases h
  · rintro ⟨hk, rfl⟩
    rw [if_pos hk]

section PartitionClaim

variable {F : Type} [Add F] [Sub F] [Mul F] [IntCast F] [LE F]
  [DecidableRel (fun a b : F => a ≤ b)] [Div F]

/-- C1. For `1 ≤ T ≤ H`, let `ws` be the workers that `compute_image` creates
on an image of height `H` with `T` threads (for an iteration cap other than 0
the call returns the image these workers leave). There are `T` of them; worker `k` has the row range
`[k*(H/T), (k+1)*(H/T))`, the last one `[(T-1)*(H/T), H)`; the ranges of two
different workers have no row in common; every row of `[0, H)` lies in the
range of exactly one worker; no range holds a row outside `[0, H)`; and the
range of the last worker ends at `H`. -/
theorem partition_coverage (xmin xmax ymin ymax : F) (max H T : Int)
    (ws : List (ThreadParameters F)) (hT : 1 ≤ T) (hTH : T ≤ H)
    (hws : ws = workers xmin xmax ymin ymax max H T (Int.tdiv H T)) :
    (∀ bm : bitmap, bitmap_height bm = H → max ≠ 0 →
      compute_image bm xmin xmax ymin ymax max T = Except.ok (run_workers ws bm)) ∧
    ws.length = T.toNat ∧
    (∀ (k : Nat) (w : ThreadParameters F), ws[k]? = some w →
      w.start_row = (k : Int) * Int.tdiv H T ∧
      w.end_row = if (k : Int) = T - 1 then H else ((k : Int) + 1) * Int.tdiv H T) ∧
    (∀ (k1 k2 : Nat) (w1 w2 : ThreadParameters F) (r : Int),
      ws[k1]? = some w1 → ws[k2]? = some w2 → k1 ≠ k2 →
      ¬ ((w1.start_row ≤ r ∧ r < w1.end_row) ∧ (w2.start_row ≤ r ∧ r < w2.end_row))) ∧
    (∀ r : Int, 0 ≤ r → r < H →
      ∃! k : Nat, ∃ w : ThreadParameters F,
        ws[k]? = some w ∧ w.start_row ≤ r ∧ r < w.end_row) ∧
    (∀ (k : Nat) (w : ThreadParameters F) (r : Int), ws[k]? = some w →
      w.start_row ≤ r → r < w.end_row → 0 ≤ r ∧ r < H) ∧
    (∃ w : ThreadParameters F, ws[T.toNat - 1]? = some w ∧ w.end_row = H) := by
  subst hws
  have hH : 0 ≤ H := by omega
  have hdis : ∀ (k1 k2 : Nat) (w1 w2 : ThreadParameters F) (r : Int),
      (workers xmin xmax ymin ymax max H T (Int.tdiv H T))[k1]? = some w1 →
      (workers xmin xmax ymin ymax max H T (Int.tdiv H T))[k2]? = some w2 → k1 ≠ k2 →
      ¬ ((w1.start_row ≤ r ∧ r < w1.end_row) ∧ (w2.start_row ≤ r ∧ r < w2.end_row)) := by
    intro k1 k2 w1 w2 r h1 h2 hne
    obtain ⟨b1, rfl⟩ := (workers_getElem xmin xmax ymin ymax max H T _ k1 w1).1 h1
    obtain ⟨b2, rfl⟩ := (workers_getElem xmin xmax ymin ymax max H T _ k2 w2).1 h2
    rintro ⟨⟨a1, a2⟩, ⟨c1, c2⟩⟩
    rcases Nat.lt_or_gt_of_ne hne with h | h
    · exact partition_disjoint xmin xmax ymin ymax max H T k1 k2 r hH hT (by omega) b2 a2 c1
    · exact partition_disjoint xmin xmax ymin ymax max H T k2 k1 r hH hT (by omega) b1 c2 a1
  refine ⟨?_, ?_, ?_, hdis, ?_, ?_, ?_⟩
  · intro bm hbm _
    rw [← hbm]
    exact compute_image_ok bm xmin xmax ymin ymax max T (by omega)
  · have := create_threads_length xmin xmax ymin ymax max H T (Int.tdiv H T) T.toNat 0 (by simp)
    simpa [workers] using this
  · intro k w hw
    obtain ⟨_, rfl⟩ := (workers_getElem xmin xmax ymin ymax max H T _ k w).1 hw
    exact ⟨rfl, rfl⟩
  · intro r hr0 hr
    obtain ⟨i, hi0, hi, h1, h2⟩ := partition_covers xmin xmax ymin ymax max H T r hH hT hr0 hr
    have hcast : ((i.toNat : Nat) : Int) = i := Int.toNat_of_nonneg hi0
    have hmem : (workers xmin xmax ymin ymax max H T (Int.tdiv H T))[i.toNat]?
        = some (thread_data xmin xmax ymin ymax max H T (Int.tdiv H T) i) :=
      (workers_getElem xmin xmax ymin ymax max H T _ i.toNat _).2
        ⟨by rw [hcast]; exact hi, by rw [hcast]⟩
    refine ⟨i.toNat, ⟨_, hmem, h1, h2⟩, ?_⟩
    rintro k ⟨w, hw, g1, g2⟩
    by_contra hne
    exact hdis k i.toNat w _ r hw hmem hne ⟨⟨g1, g2⟩, ⟨h1, h2⟩⟩
  · intro k w r hw h1 h2
    obtain ⟨hk, rfl⟩ := (workers_getElem xmin xmax ymin ymax max H T _ k w).1 hw
    exact partition_within xmin xmax ymin ymax max H T k r hH hT (by omega) hk h1 h2
  · have hcast : ((T.toNat - 1 : Nat) : Int) = T - 1 := by omega
    refine ⟨thread_data xmin xmax ymin ymax max H T (Int.tdiv H T) (T - 1), ?_, ?_⟩
    · exact (workers_getElem xmin xmax ymin ymax max H T _ (T.toNat - 1) _).2
        ⟨by omega, by rw [hcast]⟩
    · rw [partition_end_row, if_pos rfl]

end PartitionClaim

/-- C1 at height 10 with 4 workers: the creation loop makes the ranges
`[0,2)`, `[2,4)`, `[4,6)`, `[6,10)`, and row 7 lies in the range of exactly
one worker. -/
theorem partition_coverage_witness :
    (workers (0 : ℚ) 0 0 0 50 10 4 (Int.tdiv 10 4)).map (fun w => (w.start_row, w.end_row))
      = [(0, 2), (2, 4), (4, 6), (6, 10)] ∧
    (∃! k : Nat, ∃ w : ThreadParameters ℚ,
      (workers (0 : ℚ) 0 0 0 50 10 4 (Int.tdiv 10 4))[k]? = some w ∧
        w.start_row ≤ 7 ∧ 7 < w.end_row) :=
  ⟨by decide,
    (partition_coverage (0 : ℚ) 0 0 0 50 10 4 _ (by omega) (by omega) rfl).2.2.2.2.1 7
      (by omega) (by omega)⟩

end Mandel
